import Mathlib

/-!
# Verification of the neurograph-neo4j-rag retrieval core

Shallow embedding, in Lean 4, of the retrieval-and-fusion core of the
repository `AryanKadar/neurograph-neo4j-rag`, together with proofs of the
behavioural properties stated in its specification.

Conventions of the embedding:
* Python floats are modelled as exact rationals (`ℚ`).
* Python dictionaries that only carry an optional `id` and a `content`
  field (the retrieval "chunks") are modelled by the structure `Chunk`;
  Python's builtin `hash` on the content string is modelled by an
  arbitrary function `hsh : String → Int` that every definition and
  theorem is parametric in.
* A Python `defaultdict(float)` that is only read and `+=`-updated is
  modelled by an insertion-ordered association list (`List (key × ℚ)`).
* Python's stable `sorted(..., reverse=True)` on scores is modelled by a
  stable descending insertion sort.
* The `while` loop of the breadth-first path search is modelled with an
  explicit fuel parameter; all safety theorems are proved for every fuel
  value, hence for the value at which the Python loop terminates.
-/

set_option maxHeartbeats 1000000
set_option maxRecDepth 8000

namespace NeuroGraph

/-! ## Chunks and their fusion identity keys

Source: `Backend/services/hybrid_retriever.py` and
`Backend/services/research_agent.py`.  A chunk dictionary may or may not
carry an `'id'` entry; its `'content'` entry defaults to the empty
string (`chunk.get('content', '')`). -/

/-- A retrieval chunk: the parts of the Python chunk dictionary that the
fusion and deduplication logic inspects.  `id? = none` models a missing
`'id'` key; `id? = some ""` models an `'id'` key holding a falsy string. -/
structure Chunk where
  id? : Option String
  content : String
deriving DecidableEq, Repr

/-- Identity key of a chunk: either its explicit id string or the hash of
its content. -/
inductive ChunkKey where
  | ofId (s : String)
  | ofHash (n : Int)
deriving DecidableEq, Repr

/-- `hybrid_retriever.py` line 77:
`chunk_id = chunk.get('id') or hash(chunk.get('content', ''))`.
A present-but-falsy id (the empty string) falls through to the content
hash, because Python's `or` tests truthiness. -/
def fuseKey (hsh : String → Int) (c : Chunk) : ChunkKey :=
  match c.id? with
  | some s => if s = "" then .ofHash (hsh c.content) else .ofId s
  | none => .ofHash (hsh c.content)

/-- `research_agent.py` line 58:
`c_id = chunk.get('id', hash(chunk.get('content', '')))`.
`dict.get` with a default returns the stored value whenever the key is
present, even when that value is falsy. -/
def researchKey (hsh : String → Int) (c : Chunk) : ChunkKey :=
  match c.id? with
  | some s => .ofId s
  | none => .ofHash (hsh c.content)

/-! ## RRF fusion — `HybridRetriever.fuse`

Source: `Backend/services/hybrid_retriever.py`, lines 59–111.  The
method normalizes the weights, accumulates `weight / (k + rank)` into a
`defaultdict` keyed by chunk identity, and sorts the accumulated scores
in descending order.  The final conversion back to `(chunk, score)`
pairs copies metadata into the chunk and preserves keys, scores and
order, so the embedding works with `(key, score)` pairs. -/

/-- `weights = [w / total_weight for w in weights]` with
`total_weight = sum(weights)` (lines 66–67). -/
def normalizeWeights (ws : List ℚ) : List ℚ :=
  ws.map (fun w => w / ws.sum)

/-- One `rrf_scores[chunk_id] += rrf_score` update of the insertion-ordered
score dictionary (line 81). -/
def bump (key : ChunkKey) (d : ℚ) : List (ChunkKey × ℚ) → List (ChunkKey × ℚ)
  | [] => [(key, d)]
  | p :: rest => if p.1 = key then (p.1, p.2 + d) :: rest else p :: bump key d rest

/-- The inner loop `for rank, (chunk, original_score) in enumerate(result_set)`
(lines 75–93), accumulating `weight / (self.k + rank)` per chunk key.
`r` is the rank of the head of the remaining list. -/
def addResultSet (hsh : String → Int) (k : Nat) (w : ℚ) :
    List (Chunk × ℚ) → Nat → List (ChunkKey × ℚ) → List (ChunkKey × ℚ)
  | [], _, acc => acc
  | (c, _) :: rest, r, acc =>
      addResultSet hsh k w rest (r + 1) (bump (fuseKey hsh c) (w / ((k + r : Nat) : ℚ)) acc)

/-- The outer loop `for result_set, weight, method_name in zip(...)`
(line 74); `zip` truncates at the shorter list. -/
def fuseAll (hsh : String → Int) (k : Nat) :
    List (List (Chunk × ℚ)) → List ℚ → List (ChunkKey × ℚ) → List (ChunkKey × ℚ)
  | [], _, acc => acc
  | _ :: _, [], acc => acc
  | rs :: sets, w :: ws, acc => fuseAll hsh k sets ws (addResultSet hsh k w rs 0 acc)

/-- The accumulated `rrf_scores` dictionary of `fuse`, keys in insertion
order. -/
def fuseScores (hsh : String → Int) (k : Nat)
    (sets : List (List (Chunk × ℚ))) (ws : List ℚ) : List (ChunkKey × ℚ) :=
  fuseAll hsh k sets (normalizeWeights ws) []

/-- Stable descending insertion by score: an element moves past exactly the
entries with strictly larger score, as Python's stable
`sorted(..., key=score, reverse=True)` does. -/
def insertDesc {α : Type} (f : α → ℚ) (p : α) : List α → List α
  | [] => [p]
  | q :: rest => if f p < f q then q :: insertDesc f p rest else p :: q :: rest

/-- Stable descending sort by a score projection (used by `fuse` line 96,
`sorted(rrf_scores.items(), key=lambda x: x[1], reverse=True)`, and by
`find_paths` line 80, `scored_paths.sort(key=lambda x: x['score'],
reverse=True)`). -/
def sortDesc {α : Type} (f : α → ℚ) : List α → List α
  | [] => []
  | p :: rest => insertDesc f p (sortDesc f rest)

/-- `HybridRetriever.fuse`, at the level of (identity key, fused score)
pairs.  The Python method's final block rebuilds `(chunk, score)` pairs
from these in the same order with the same scores. -/
def fuse (hsh : String → Int) (k : Nat)
    (sets : List (List (Chunk × ℚ))) (ws : List ℚ) : List (ChunkKey × ℚ) :=
  sortDesc Prod.snd (fuseScores hsh k sets ws)

/-- Total score recorded for `key` in an association list (the sum of the
values at `key`; for the key-unique lists produced by `bump` this is the
single stored value, and `0` for an absent key). -/
def getScore (l : List (ChunkKey × ℚ)) (key : ChunkKey) : ℚ :=
  ((l.filter fun p => p.1 = key).map Prod.snd).sum

/-- Sum of the contributions `w / (k + rank)` of every occurrence of `key`
in a result set, ranks starting at `r`. -/
def contribFrom (hsh : String → Int) (k : Nat) (w : ℚ) (key : ChunkKey) :
    Nat → List (Chunk × ℚ) → ℚ
  | _, [] => 0
  | r, (c, _) :: rest =>
      (if fuseKey hsh c = key then w / ((k + r : Nat) : ℚ) else 0) +
        contribFrom hsh k w key (r + 1) rest

/-- The 0-indexed rank of the chunk with identity `key` in a result set
(position of its first occurrence). -/
def rankOf (hsh : String → Int) (key : ChunkKey) : List (Chunk × ℚ) → Option Nat
  | [] => none
  | p :: rest =>
      if fuseKey hsh p.1 = key then some 0 else (rankOf hsh key rest).map (· + 1)

/-- The specification's per-list contribution: `w / (k + r)` where `r` is
the rank of the item in the list, `0` when the item is absent. -/
def rankContrib (hsh : String → Int) (k : Nat) (w : ℚ) (key : ChunkKey)
    (rs : List (Chunk × ℚ)) : ℚ :=
  match rankOf hsh key rs with
  | some r => w / ((k + r : Nat) : ℚ)
  | none => 0

/-- The specification's fused score of an item: the sum of its per-list
rank contributions over the (list, weight) pairs. -/
def rrfRankScore (hsh : String → Int) (k : Nat) (key : ChunkKey) :
    List (List (Chunk × ℚ)) → List ℚ → ℚ
  | [], _ => 0
  | _ :: _, [] => 0
  | rs :: sets, w :: ws => rankContrib hsh k w key rs + rrfRankScore hsh k key sets ws

/-- Occurrence-sum analogue of `rrfRankScore`; coincides with it on lists
whose chunk keys are pairwise distinct. -/
def rrfOccScore (hsh : String → Int) (k : Nat) (key : ChunkKey) :
    List (List (Chunk × ℚ)) → List ℚ → ℚ
  | [], _ => 0
  | _ :: _, [] => 0
  | rs :: sets, w :: ws => contribFrom hsh k w key 0 rs + rrfOccScore hsh k key sets ws

/-- The chunk identity keys of a result set. -/
def setKeys (hsh : String → Int) (rs : List (Chunk × ℚ)) : List ChunkKey :=
  rs.map fun p => fuseKey hsh p.1

/-! ### Score-accounting lemmas for `fuse` -/

theorem getScore_nil (key : ChunkKey) : getScore [] key = 0 := rfl

theorem getScore_cons (p : ChunkKey × ℚ) (l : List (ChunkKey × ℚ)) (key : ChunkKey) :
    getScore (p :: l) key = (if p.1 = key then p.2 else 0) + getScore l key := by
  by_cases h : p.1 = key <;> simp [getScore, List.filter_cons, h]

theorem getScore_eq_zero_of_not_mem (key : ChunkKey) :
    ∀ l : List (ChunkKey × ℚ), key ∉ l.map Prod.fst → getScore l key = 0 := by
  intro l
  induction l with
  | nil => intro _; rfl
  | cons p rest ih =>
    intro h
    simp only [List.map_cons, List.mem_cons] at h
    push_neg at h
    rw [getScore_cons, ih h.2, if_neg (fun h' => h.1 h'.symm)]
    simp

theorem getScore_bump (key : ChunkKey) (d : ℚ) (key' : ChunkKey) :
    ∀ l : List (ChunkKey × ℚ),
      getScore (bump key d l) key' = getScore l key' + (if key' = key then d else 0) := by
  intro l
  induction l with
  | nil =>
    by_cases h : key' = key
    · subst h; simp [bump, getScore_cons, getScore_nil]
    · simp [bump, getScore_cons, getScore_nil, h, Ne.symm h]
  | cons p rest ih =>
    have hb : bump key d (p :: rest) =
        if p.1 = key then (p.1, p.2 + d) :: rest else p :: bump key d rest := rfl
    by_cases h : p.1 = key
    · subst h
      by_cases h2 : key' = p.1
      · subst h2
        rw [hb, if_pos rfl, getScore_cons, getScore_cons, if_pos rfl, if_pos rfl, if_pos rfl]
        ring
      · rw [hb, if_pos rfl, getScore_cons, getScore_cons,
          if_neg (Ne.symm h2), if_neg (Ne.symm h2), if_neg h2]
        ring
    · rw [hb, if_neg h, getScore_cons, getScore_cons, ih]
      ring

theorem getScore_addResultSet (hsh : String → Int) (k : Nat) (w : ℚ) (key : ChunkKey) :
    ∀ (rs : List (Chunk × ℚ)) (r : Nat) (acc : List (ChunkKey × ℚ)),
      getScore (addResultSet hsh k w rs r acc) key =
        getScore acc key + contribFrom hsh k w key r rs := by
  intro rs
  induction rs with
  | nil => intro r acc; simp [addResultSet, contribFrom]
  | cons p rest ih =>
    intro r acc
    obtain ⟨c, s⟩ := p
    rw [addResultSet, contribFrom, ih, getScore_bump]
    by_cases h : fuseKey hsh c = key
    · rw [if_pos h, if_pos h.symm]; ring
    · rw [if_neg h, if_neg (fun h' => h h'.symm)]; ring

theorem getScore_fuseAll (hsh : String → Int) (k : Nat) (key : ChunkKey) :
    ∀ (sets : List (List (Chunk × ℚ))) (ws : List ℚ) (acc : List (ChunkKey × ℚ)),
      getScore (fuseAll hsh k sets ws acc) key =
        getScore acc key + rrfOccScore hsh k key sets ws := by
  intro sets
  induction sets with
  | nil => intro ws acc; simp [fuseAll, rrfOccScore]
  | cons rs sets ih =>
    intro ws acc
    cases ws with
    | nil => simp [fuseAll, rrfOccScore]
    | cons w ws =>
      rw [fuseAll, rrfOccScore, ih, getScore_addResultSet]
      ring

theorem getScore_fuseScores (hsh : String → Int) (k : Nat) (key : ChunkKey)
    (sets : List (List (Chunk × ℚ))) (ws : List ℚ) :
    getScore (fuseScores hsh k sets ws) key =
      rrfOccScore hsh k key sets (normalizeWeights ws) := by
  rw [fuseScores, getScore_fuseAll, getScore_nil, zero_add]

/-! ### Occurrence sums vs. rank contributions -/

theorem contribFrom_eq_zero (hsh : String → Int) (k : Nat) (w : ℚ) (key : ChunkKey) :
    ∀ (rs : List (Chunk × ℚ)) (r : Nat),
      key ∉ setKeys hsh rs → contribFrom hsh k w key r rs = 0 := by
  intro rs
  induction rs with
  | nil => intro r _; rfl
  | cons p rest ih =>
    intro r h
    simp only [setKeys, List.map_cons, List.mem_cons] at h
    push_neg at h
    rw [contribFrom, ih _ h.2, if_neg (fun h' => h.1 h'.symm)]
    simp

theorem contribFrom_eq_rank (hsh : String → Int) (k : Nat) (w : ℚ) (key : ChunkKey) :
    ∀ (rs : List (Chunk × ℚ)) (r : Nat), (setKeys hsh rs).Nodup →
      contribFrom hsh k w key r rs =
        (match rankOf hsh key rs with
         | some i => w / ((k + r + i : Nat) : ℚ)
         | none => 0) := by
  intro rs
  induction rs with
  | nil => intro r _; rfl
  | cons p rest ih =>
    intro r hnd
    obtain ⟨c, s⟩ := p
    simp only [setKeys, List.map_cons, List.nodup_cons] at hnd
    by_cases h : fuseKey hsh c = key
    · rw [contribFrom, rankOf, if_pos h, if_pos h,
        contribFrom_eq_zero hsh k w key rest (r + 1) (h ▸ hnd.1)]
      simp
    · rw [contribFrom, rankOf, if_neg h, if_neg h, ih _ hnd.2]
      cases hrank : rankOf hsh key rest with
      | none => simp [hrank]
      | some i =>
        have h3 : k + (r + 1) + i = k + r + (i + 1) := by omega
        simp [hrank, h3]

theorem rrfOccScore_eq_rankScore (hsh : String → Int) (k : Nat) (key : ChunkKey) :
    ∀ (sets : List (List (Chunk × ℚ))) (ws : List ℚ),
      (∀ rs ∈ sets, (setKeys hsh rs).Nodup) →
      rrfOccScore hsh k key sets ws = rrfRankScore hsh k key sets ws := by
  intro sets
  induction sets with
  | nil => intro ws _; cases ws <;> rfl
  | cons rs sets ih =>
    intro ws hnd
    cases ws with
    | nil => rfl
    | cons w ws =>
      rw [rrfOccScore, rrfRankScore,
        ih ws (fun rs' h => hnd rs' (List.mem_cons_of_mem _ h)),
        contribFrom_eq_rank hsh k w key rs 0 (hnd rs (List.mem_cons_self _ _)),
        rankContrib]
      cases hrank : rankOf hsh key rs <;> simp [hrank]

/-! ### Key uniqueness of the accumulated score dictionary -/

theorem keys_bump (key : ChunkKey) (d : ℚ) :
    ∀ l : List (ChunkKey × ℚ),
      (bump key d l).map Prod.fst =
        if key ∈ l.map Prod.fst then l.map Prod.fst else l.map Prod.fst ++ [key] := by
  intro l
  induction l with
  | nil => simp [bump]
  | cons p rest ih =>
    by_cases h : p.1 = key
    · subst h; simp [bump]
    · simp only [bump, if_neg h]
      by_cases h2 : key ∈ rest.map Prod.fst
      · simp [ih, h2, Ne.symm h]
      · simp [ih, h2, Ne.symm h]

theorem nodup_keys_bump (key : ChunkKey) (d : ℚ) (l : List (ChunkKey × ℚ))
    (h : (l.map Prod.fst).Nodup) : ((bump key d l).map Prod.fst).Nodup := by
  rw [keys_bump]
  by_cases h2 : key ∈ l.map Prod.fst
  · rwa [if_pos h2]
  · rw [if_neg h2]
    simp [List.nodup_append, h, h2]

theorem nodup_keys_addResultSet (hsh : String → Int) (k : Nat) (w : ℚ) :
    ∀ (rs : List (Chunk × ℚ)) (r : Nat) (acc : List (ChunkKey × ℚ)),
      (acc.map Prod.fst).Nodup →
      ((addResultSet hsh k w rs r acc).map Prod.fst).Nodup := by
  intro rs
  induction rs with
  | nil => intro r acc h; exact h
  | cons p rest ih =>
    intro r acc h
    obtain ⟨c, s⟩ := p
    exact ih _ _ (nodup_keys_bump _ _ _ h)

theorem nodup_keys_fuseAll (hsh : String → Int) (k : Nat) :
    ∀ (sets : List (List (Chunk × ℚ))) (ws : List ℚ) (acc : List (ChunkKey × ℚ)),
      (acc.map Prod.fst).Nodup →
      ((fuseAll hsh k sets ws acc).map Prod.fst).Nodup := by
  intro sets
  induction sets with
  | nil => intro ws acc h; exact h
  | cons rs sets ih =>
    intro ws acc h
    cases ws with
    | nil => exact h
    | cons w ws => exact ih _ _ (nodup_keys_addResultSet _ _ _ _ _ _ h)

theorem nodup_keys_fuseScores (hsh : String → Int) (k : Nat)
    (sets : List (List (Chunk × ℚ))) (ws : List ℚ) :
    ((fuseScores hsh k sets ws).map Prod.fst).Nodup :=
  nodup_keys_fuseAll hsh k sets (normalizeWeights ws) [] List.nodup_nil

theorem getScore_eq_of_mem (l : List (ChunkKey × ℚ)) (p : ChunkKey × ℚ)
    (hnd : (l.map Prod.fst).Nodup) (hp : p ∈ l) : getScore l p.1 = p.2 := by
  induction l with
  | nil => cases hp
  | cons q rest ih =>
    simp only [List.map_cons, List.nodup_cons] at hnd
    rcases List.mem_cons.mp hp with h | h
    · subst h
      rw [getScore_cons, if_pos rfl,
        getScore_eq_zero_of_not_mem _ _ hnd.1, add_zero]
    · have hne : q.1 ≠ p.1 := by
        intro h'
        exact hnd.1 (h' ▸ List.mem_map_of_mem Prod.fst h)
      rw [getScore_cons, if_neg hne, ih hnd.2 h, zero_add]

/-! ### The descending sort: permutation and sortedness -/

theorem insertDesc_perm {α : Type} (f : α → ℚ) (p : α) :
    ∀ l : List α, (insertDesc f p l).Perm (p :: l) := by
  intro l
  induction l with
  | nil => exact List.Perm.refl _
  | cons q rest ih =>
    rw [insertDesc]
    by_cases h : f p < f q
    · rw [if_pos h]
      exact (ih.cons q).trans (List.Perm.swap p q rest)
    · rw [if_neg h]

theorem sortDesc_perm {α : Type} (f : α → ℚ) :
    ∀ l : List α, (sortDesc f l).Perm l := by
  intro l
  induction l with
  | nil => exact List.Perm.refl _
  | cons p rest ih => exact (insertDesc_perm f p (sortDesc f rest)).trans (ih.cons p)

theorem getScore_congr_perm (l l' : List (ChunkKey × ℚ)) (h : l.Perm l') (key : ChunkKey) :
    getScore l key = getScore l' key :=
  ((h.filter _).map Prod.snd).sum_eq

theorem mem_insertDesc {α : Type} (f : α → ℚ) (p a : α) (l : List α) :
    a ∈ insertDesc f p l ↔ a = p ∨ a ∈ l := by
  rw [(insertDesc_perm f p l).mem_iff, List.mem_cons]

theorem insertDesc_sorted {α : Type} (f : α → ℚ) (p : α) :
    ∀ l : List α, l.Pairwise (fun a b => f b ≤ f a) →
      (insertDesc f p l).Pairwise (fun a b => f b ≤ f a) := by
  intro l
  induction l with
  | nil => intro _; simp [insertDesc]
  | cons q rest ih =>
    intro hs
    rw [List.pairwise_cons] at hs
    rw [insertDesc]
    by_cases h : f p < f q
    · rw [if_pos h]
      rw [List.pairwise_cons]
      refine ⟨?_, ih hs.2⟩
      intro a ha
      rcases (mem_insertDesc f p a rest).mp ha with h' | h'
      · exact h' ▸ le_of_lt h
      · exact hs.1 a h'
    · rw [if_neg h]
      push_neg at h
      rw [List.pairwise_cons]
      refine ⟨?_, List.pairwise_cons.mpr hs⟩
      intro a ha
      rcases List.mem_cons.mp ha with h' | h'
      · exact h' ▸ h
      · exact le_trans (hs.1 a h') h

theorem sortDesc_sorted {α : Type} (f : α → ℚ) :
    ∀ l : List α, (sortDesc f l).Pairwise (fun a b => f b ≤ f a) := by
  intro l
  induction l with
  | nil => simp [sortDesc]
  | cons p rest ih => exact insertDesc_sorted f p (sortDesc f rest) ih

theorem fuse_perm_fuseScores (hsh : String → Int) (k : Nat)
    (sets : List (List (Chunk × ℚ))) (ws : List ℚ) :
    (fuse hsh k sets ws).Perm (fuseScores hsh k sets ws) :=
  sortDesc_perm _ _

theorem getScore_fuse (hsh : String → Int) (k : Nat) (key : ChunkKey)
    (sets : List (List (Chunk × ℚ))) (ws : List ℚ) :
    getScore (fuse hsh k sets ws) key =
      rrfOccScore hsh k key sets (normalizeWeights ws) := by
  rw [getScore_congr_perm _ _ (fuse_perm_fuseScores hsh k sets ws), getScore_fuseScores]

/-! ### Monotonicity helpers -/

theorem rankContrib_nonneg (hsh : String → Int) (k : Nat) (w : ℚ) (key : ChunkKey)
    (rs : List (Chunk × ℚ)) (hw : 0 ≤ w) : 0 ≤ rankContrib hsh k w key rs := by
  rw [rankContrib]
  cases h : rankOf hsh key rs with
  | none => exact le_refl 0
  | some r => exact div_nonneg hw (Nat.cast_nonneg _)

theorem rankContrib_mono (hsh : String → Int) (k : Nat) (w : ℚ) (x y : ChunkKey)
    (rs : List (Chunk × ℚ)) (hk : 0 < k) (hw : 0 ≤ w)
    (h : ∀ ry, rankOf hsh y rs = some ry →
      ∃ rx, rankOf hsh x rs = some rx ∧ rx ≤ ry) :
    rankContrib hsh k w y rs ≤ rankContrib hsh k w x rs := by
  rw [rankContrib]
  cases hy : rankOf hsh y rs with
  | none => exact rankContrib_nonneg hsh k w x rs hw
  | some ry =>
    obtain ⟨rx, hx, hle⟩ := h ry hy
    rw [rankContrib, hx]
    have h1 : (0 : ℚ) < ((k + rx : Nat) : ℚ) := by
      have : 0 < k + rx := by omega
      exact_mod_cast this
    have h2 : ((k + rx : Nat) : ℚ) ≤ ((k + ry : Nat) : ℚ) := by
      have : k + rx ≤ k + ry := by omega
      exact_mod_cast this
    exact div_le_div_of_nonneg_left hw h1 h2

theorem rrfRankScore_mono (hsh : String → Int) (k : Nat) (x y : ChunkKey) (hk : 0 < k) :
    ∀ (sets : List (List (Chunk × ℚ))) (ws : List ℚ),
      (∀ w ∈ ws, 0 ≤ w) →
      (∀ rs ∈ sets, ∀ ry, rankOf hsh y rs = some ry →
        ∃ rx, rankOf hsh x rs = some rx ∧ rx ≤ ry) →
      rrfRankScore hsh k y sets ws ≤ rrfRankScore hsh k x sets ws := by
  intro sets
  induction sets with
  | nil => intro ws _ _; cases ws <;> exact le_refl _
  | cons rs sets ih =>
    intro ws hw h
    cases ws with
    | nil => exact le_refl _
    | cons w ws =>
      rw [rrfRankScore, rrfRankScore]
      exact add_le_add
        (rankContrib_mono hsh k w x y rs hk (hw w (List.mem_cons_self _ _))
          (h rs (List.mem_cons_self _ _)))
        (ih ws (fun w' h' => hw w' (List.mem_cons_of_mem _ h'))
          (fun rs' h' => h rs' (List.mem_cons_of_mem _ h')))

theorem normalizeWeights_nonneg (ws : List ℚ) (hw : ∀ w ∈ ws, 0 ≤ w) :
    ∀ w' ∈ normalizeWeights ws, 0 ≤ w' := by
  intro w' hmem
  rw [normalizeWeights] at hmem
  obtain ⟨w, hwmem, rfl⟩ := List.mem_map.mp hmem
  exact div_nonneg (hw w hwmem) (List.sum_nonneg hw)

/-! ### The concrete fusion scenario of the specification

Vector list `[(A, 0.9), (B, 0.8)]`, lexical list `[(B, 15), (C, 10)]`,
equal weights. -/

def chunkA : Chunk := ⟨some "A", "docA"⟩

def chunkB : Chunk := ⟨some "B", "docB"⟩

def chunkC : Chunk := ⟨some "C", "docC"⟩

def scenarioSets : List (List (Chunk × ℚ)) :=
  [[(chunkA, 9/10), (chunkB, 8/10)], [(chunkB, 15), (chunkC, 10)]]

def scenarioFused : List (ChunkKey × ℚ) := fuse (fun _ => 0) 60 scenarioSets [1, 1]

/-! ## Claims about `HybridRetriever.fuse` -/

/-- C1.  For every call to `HybridRetriever.fuse` with ranked result sets
(each item at most once per list) and positive weights, each item's
output score is the sum, over the input lists in which the item appears,
of (normalized list weight) / (60 + rank in that list); the output is
sorted by this score in descending order; and fusing vector list
`[(A, 0.9), (B, 0.8)]` with lexical list `[(B, 15), (C, 10)]` under
equal weights ranks B above both A and C. -/
theorem fuse_rrf_spec (hsh : String → Int) (sets : List (List (Chunk × ℚ)))
    (ws : List ℚ) (hlen : ws.length = sets.length) (hpos : ∀ w ∈ ws, 0 < w)
    (hnd : ∀ rs ∈ sets, (setKeys hsh rs).Nodup) :
    (∀ p ∈ fuse hsh 60 sets ws,
        p.2 = rrfRankScore hsh 60 p.1 sets (normalizeWeights ws)) ∧
    (fuse hsh 60 sets ws).Pairwise (fun a b => b.2 ≤ a.2) ∧
    scenarioFused.map Prod.fst =
      [ChunkKey.ofId "B", ChunkKey.ofId "A", ChunkKey.ofId "C"] := by
  refine ⟨?_, sortDesc_sorted Prod.snd _, ?_⟩
  · intro p hp
    have hmem : p ∈ fuseScores hsh 60 sets ws :=
      (fuse_perm_fuseScores hsh 60 sets ws).mem_iff.mp hp
    have hsc := getScore_eq_of_mem _ p (nodup_keys_fuseScores hsh 60 sets ws) hmem
    rw [getScore_fuseScores, rrfOccScore_eq_rankScore hsh 60 p.1 sets
      (normalizeWeights ws) hnd] at hsc
    exact hsc.symm
  · norm_num [scenarioFused, scenarioSets, fuse, fuseScores, fuseAll, addResultSet, bump,
      normalizeWeights, sortDesc, insertDesc, fuseKey, chunkA, chunkB, chunkC]
    decide

/-- Witness for C1 at the specification's own scenario inputs. -/
theorem fuse_rrf_spec_witness :
    (∀ p ∈ fuse (fun _ => 0) 60 scenarioSets [1, 1],
        p.2 = rrfRankScore (fun _ => 0) 60 p.1 scenarioSets (normalizeWeights [1, 1])) ∧
    (fuse (fun _ => 0) 60 scenarioSets [1, 1]).Pairwise (fun a b => b.2 ≤ a.2) ∧
    scenarioFused.map Prod.fst =
      [ChunkKey.ofId "B", ChunkKey.ofId "A", ChunkKey.ofId "C"] :=
  fuse_rrf_spec (fun _ => 0) scenarioSets [1, 1]
    (by simp [scenarioSets])
    (by simp)
    (by simp [scenarioSets, setKeys, fuseKey, chunkA, chunkB, chunkC])

/-- C2.  For any inputs to `fuse` with non-negative weights and ranked
(duplicate-free) result sets: if item `x` appears in a superset of the
lists in which item `y` appears, with a rank at least as good in every
shared list, then `x`'s fused score is at least `y`'s. -/
theorem fuse_monotone (hsh : String → Int) (sets : List (List (Chunk × ℚ)))
    (ws : List ℚ) (x y : ChunkKey)
    (hw : ∀ w ∈ ws, 0 ≤ w)
    (hnd : ∀ rs ∈ sets, (setKeys hsh rs).Nodup)
    (hxy : ∀ rs ∈ sets, ∀ ry, rankOf hsh y rs = some ry →
      ∃ rx, rankOf hsh x rs = some rx ∧ rx ≤ ry) :
    getScore (fuse hsh 60 sets ws) y ≤ getScore (fuse hsh 60 sets ws) x := by
  rw [getScore_fuse, getScore_fuse,
    rrfOccScore_eq_rankScore hsh 60 x sets (normalizeWeights ws) hnd,
    rrfOccScore_eq_rankScore hsh 60 y sets (normalizeWeights ws) hnd]
  exact rrfRankScore_mono hsh 60 x y (by norm_num) sets (normalizeWeights ws)
    (normalizeWeights_nonneg ws hw) hxy

/-- Witness for C2: on the scenario inputs, C (one list, rank 1) scores no
more than B (both lists, ranks 1 and 0). -/
theorem fuse_monotone_witness :
    getScore (fuse (fun _ => 0) 60 scenarioSets [1, 1]) (ChunkKey.ofId "C") ≤
      getScore (fuse (fun _ => 0) 60 scenarioSets [1, 1]) (ChunkKey.ofId "B") :=
  fuse_monotone (fun _ => 0) scenarioSets [1, 1] (ChunkKey.ofId "B") (ChunkKey.ofId "C")
    (by simp)
    (by simp [scenarioSets, setKeys, fuseKey, chunkA, chunkB, chunkC])
    (by
      intro rs hrs ry hry
      simp only [scenarioSets, List.mem_cons, List.mem_singleton] at hrs
      rcases hrs with h | h | h
      · exfalso
        rw [h] at hry
        simp [rankOf, fuseKey, chunkA, chunkB] at hry
      · rw [h] at hry ⊢
        refine ⟨0, by simp [rankOf, fuseKey, chunkB], ?_⟩
        simp [rankOf, fuseKey, chunkB, chunkC] at hry
        omega
      · cases h)

/-! ## Claim about the deduplication keys (research loop vs. fusion) -/

/-- C9 counterexample: for a chunk whose `'id'` entry is present but falsy
(the empty string), the research loop's deduplication key
(`chunk.get('id', hash(...))`, which returns the stored falsy id) differs
from the fusion identity key (`chunk.get('id') or hash(...)`, which falls
through to the content hash). -/
theorem researchKey_ne_fuseKey_on_empty_id :
    researchKey (fun _ => 0) ⟨some "", "x"⟩ ≠ fuseKey (fun _ => 0) ⟨some "", "x"⟩ := by
  simp [researchKey, fuseKey]

/-- C9 amended: the research loop's deduplication key equals the fusion
identity key for every chunk whose `'id'` entry is not a present-but-empty
string, i.e. whenever the id is absent or truthy. -/
theorem researchKey_eq_fuseKey (hsh : String → Int) (c : Chunk)
    (h : c.id? ≠ some "") : researchKey hsh c = fuseKey hsh c := by
  cases hid : c.id? with
  | none => simp [researchKey, fuseKey, hid]
  | some s =>
    have hs : s ≠ "" := fun h' => h (by rw [hid, h'])
    simp [researchKey, fuseKey, hid, hs]

/-- Witness for the amended C9 at a chunk with a truthy id and one with no
id. -/
theorem researchKey_eq_fuseKey_witness :
    researchKey (fun _ => 7) ⟨some "A", "x"⟩ = fuseKey (fun _ => 7) ⟨some "A", "x"⟩ ∧
    researchKey (fun _ => 7) ⟨none, "x"⟩ = fuseKey (fun _ => 7) ⟨none, "x"⟩ :=
  ⟨researchKey_eq_fuseKey (fun _ => 7) ⟨some "A", "x"⟩ (by simp),
   researchKey_eq_fuseKey (fun _ => 7) ⟨none, "x"⟩ (by simp)⟩

/-! ## Graph traversal — `GraphTraversal` and its configuration

Source: `Backend/services/graph_traversal.py` and
`Backend/config/graph_config.py`.  The traversal reads the knowledge
store through `graph_service.nodes` (an id-keyed node dictionary),
`graph_service.find_nodes_by_name` and
`graph_service.get_node_edges(·, direction='outgoing')`. -/

/-- A knowledge-graph node (the fields the traversal reads). -/
structure GraphNode where
  nid : String
  name : String
deriving DecidableEq, Repr

/-- A knowledge-graph edge as returned by `get_node_edges`: its properties
plus `type`, `from_id`, `to_id`.  `confidence? = none` models an edge
record without a `confidence` key (`edge.get('confidence', 0.8)`);
`to_id = ""` models a missing/falsy `to_id` (`if not next_node`);
`etype = ""` models a missing `type` (`edge.get('type', '')`). -/
structure GraphEdge where
  etype : String
  confidence? : Option ℚ
  from_id : String
  to_id : String
  chunk_id : String
deriving DecidableEq, Repr

/-- Modelled from the spec: the knowledge store that `GraphTraversal`
assumes — an id-keyed node dictionary (`graph_service.nodes`) and an edge
collection queried by `get_node_edges`/`find_nodes_by_name`.  In `src/`
this store lives behind the Neo4j-backed `GraphService`, which executes
the matching inside the database (and, after the Neo4j migration, no
longer even exposes a `nodes` attribute — see the C8 result). -/
structure Graph where
  nodes : List (String × GraphNode)
  edges : List GraphEdge

/-- Ids of nodes in the store (`ref in self.graph_service.nodes` tests
dictionary keys). -/
def nodeIds (g : Graph) : List String :=
  g.nodes.map Prod.fst

/-- `get_node_edges(current, direction='outgoing')`: the edges leaving a
node. -/
def outgoing (g : Graph) (nid : String) : List GraphEdge :=
  g.edges.filter fun e => e.from_id = nid

/-- Case-folded characters of a string (`toLower(...)` in the
`find_nodes_by_name` query). -/
def lowerChars (s : String) : List Char :=
  s.data.map Char.toLower

/-- Substring containment on character lists (the Cypher `CONTAINS`
operator of `find_nodes_by_name`). -/
def charsContain (pat : List Char) : List Char → Bool
  | [] => pat.isEmpty
  | c :: rest => pat.isPrefixOf (c :: rest) || charsContain pat rest

/-- Modelled from the spec: `GraphService.find_nodes_by_name(name, limit)`
(`graph_service.py` lines 155–170) — case-insensitive substring match on
node names, truncated to `limit` results; the matching itself runs inside
Neo4j (`WHERE toLower(n.name) CONTAINS toLower($name) ... LIMIT $limit`). -/
def findNodesByName (g : Graph) (name : String) (limit : Nat) : List GraphNode :=
  ((g.nodes.map Prod.snd).filter fun n =>
    charsContain (lowerChars name) (lowerChars n.name)).take limit

/-- Resolution of a single entity reference (`_resolve_entities` loop
body): a direct id match wins, otherwise up to 3 fuzzy name matches. -/
def resolveOne (g : Graph) (ref : String) : List String :=
  if ref ∈ nodeIds g then [ref] else (findNodesByName g ref 3).map fun n => n.nid

/-- The `resolved` list accumulated over all references. -/
def resolveAll (g : Graph) : List String → List String
  | [] => []
  | ref :: rest => resolveOne g ref ++ resolveAll g rest

/-- `GraphTraversal._resolve_entities` (lines 86–97):
`list(set(resolved))[:10]`.  Python iterates the set in an unspecified
order; the embedding keeps first occurrences (`dedup`), which realizes one
such order. -/
def resolveEntities (g : Graph) (refs : List String) : List String :=
  (resolveAll g refs).dedup.take 10

/-! ### Path scoring — `GraphTraversal._score_path` (lines 147–214) -/

/-- `config/graph_config.py` line 66: hard confidence floor. -/
def MIN_CONFIDENCE : ℚ := 40/100

/-- `config/graph_config.py` line 67: soft confidence threshold. -/
def SOFT_CONFIDENCE : ℚ := 70/100

/-- `config/graph_config.py` line 64: default maximum path length. -/
def MAX_HOPS : Nat := 3

/-- `config/graph_config.py` line 65: output truncation of `find_paths`. -/
def MAX_PATHS_PER_QUERY : Nat := 10

/-- `EDGE_WEIGHTS.get(edge.get('type', ''), 0.5)`: the per-edge-type
relevance table of `graph_config.py` with default 0.5. -/
def edgeTypeWeight (t : String) : ℚ :=
  if t = "CREATED_BY" then 95/100
  else if t = "CAUSED_BY" then 95/100
  else if t = "DEPENDS_ON" then 90/100
  else if t = "USES" then 85/100
  else if t = "PART_OF" then 85/100
  else if t = "IMPLEMENTS" then 80/100
  else if t = "CONNECTS_TO" then 75/100
  else if t = "MANAGES" then 70/100
  else if t = "COMMUNICATES_WITH" then 70/100
  else if t = "RETURNS" then 90/100
  else if t = "DEPLOYED_ON" then 75/100
  else if t = "RELATES_TO" then 65/100
  else if t = "MENTIONED_IN" then 50/100
  else 50/100

/-- `edge.get('confidence', 0.8)`. -/
def effConfidence (e : GraphEdge) : ℚ :=
  e.confidence?.getD (8/10)

/-- `{1: 1.0, 2: 0.8, 3: 0.6}.get(hop_count, 0.4)`. -/
def lengthScoreOf (hop : Nat) : ℚ :=
  if hop = 1 then 1 else if hop = 2 then 8/10 else if hop = 3 then 6/10 else 4/10

/-- `min(confidences) if confidences else 0.5`. -/
def pathMinConf (path : List GraphEdge) : ℚ :=
  match path.map effConfidence with
  | [] => 1/2
  | c :: rest => rest.foldl min c

/-- `sum(edge_scores) / len(edge_scores) if edge_scores else 0.5`. -/
def edgeScoreOf (path : List GraphEdge) : ℚ :=
  if path = [] then 1/2
  else (path.map fun e => edgeTypeWeight e.etype).sum /
    (((path.map fun e => edgeTypeWeight e.etype).length : ℚ))

/-- `sum(confidences) / len(confidences) if confidences else 0.5`. -/
def pathAvgConf (path : List GraphEdge) : ℚ :=
  if path = [] then 1/2
  else (path.map effConfidence).sum / (((path.map effConfidence).length : ℚ))

/-- The soft-confidence penalty (lines 186–189): below `SOFT_CONFIDENCE`
the average confidence is scaled by `0.5 + 0.5 * max(0, normalized)`. -/
def adjustedConf (path : List GraphEdge) : ℚ :=
  if pathMinConf path < SOFT_CONFIDENCE then
    pathAvgConf path *
      (1/2 + 1/2 * max 0 ((pathMinConf path - MIN_CONFIDENCE) /
        (SOFT_CONFIDENCE - MIN_CONFIDENCE)))
  else pathAvgConf path

/-- `final_score` (lines 191–197) with `PATH_SCORING_WEIGHTS =
{length: 0.3, edge_type: 0.4, confidence: 0.3}`. -/
def pathScore (path : List GraphEdge) : ℚ :=
  3/10 * lengthScoreOf path.length + 4/10 * edgeScoreOf path + 3/10 * adjustedConf path

/-- The dictionary returned by `_score_path`. -/
structure ScoredPath where
  path : List GraphEdge
  score : ℚ
  hop_count : Nat
  nodes : List String
  edgeTypes : List String
  source_chunks : List String
  confidence_scores : List ℚ
  low_confidence_warning : Bool
deriving DecidableEq, Repr

/-- `GraphTraversal._score_path`: `None` for an empty path and for a path
whose minimum edge confidence is below the hard floor; otherwise the
scored record. -/
def scorePath : List GraphEdge → Option ScoredPath
  | [] => none
  | e :: rest =>
      if pathMinConf (e :: rest) < MIN_CONFIDENCE then none
      else some {
        path := e :: rest
        score := pathScore (e :: rest)
        hop_count := (e :: rest).length
        nodes := e.from_id :: (e :: rest).map (fun x => x.to_id)
        edgeTypes := (e :: rest).map fun x => x.etype
        source_chunks :=
          (((e :: rest).map fun x => x.chunk_id).filter fun s => ¬s = "").dedup
        confidence_scores := (e :: rest).map effConfidence
        low_confidence_warning := decide (pathMinConf (e :: rest) < 70/100) }

/-! ### Breadth-first path search — `GraphTraversal._bfs_paths` (lines 99–145)

The Python `while` loop is modelled with an explicit fuel parameter; when
the fuel runs out the paths found so far are returned, so every safety
property proved for all fuel values holds at the fuel for which the
Python loop terminates. -/

/-- One queue entry `(current_node, path_so_far, visited_nodes)`. -/
structure BfsEntry where
  node : String
  path : List GraphEdge
  visited : List String
deriving DecidableEq, Repr

/-- The inner `for edge in edges` loop (lines 124–143): appends completed
paths to `found` (with the `break` at 20) and pushes unvisited
continuations onto the queue.  Returns the updated queue and found
list. -/
def processEdges (endId : String) (maxHops : Nat) (ent : BfsEntry) :
    List GraphEdge → List BfsEntry → List (List GraphEdge) →
      List BfsEntry × List (List GraphEdge)
  | [], q, found => (q, found)
  | e :: rest, q, found =>
      if e.to_id = "" then processEdges endId maxHops ent rest q found
      else if e.to_id = endId then
        if 20 ≤ (found ++ [ent.path ++ [e]]).length then (q, found ++ [ent.path ++ [e]])
        else processEdges endId maxHops ent rest q (found ++ [ent.path ++ [e]])
      else if e.to_id ∉ ent.visited ∧ ent.path.length < maxHops - 1 then
        processEdges endId maxHops ent rest
          (q ++ [⟨e.to_id, ent.path ++ [e], ent.visited ++ [e.to_id]⟩]) found
      else processEdges endId maxHops ent rest q found

/-- The `while queue and len(found_paths) < 20` loop (lines 114–143),
with fuel. -/
def bfsLoop (g : Graph) (endId : String) (maxHops : Nat) :
    Nat → List BfsEntry → List (List GraphEdge) → List (List GraphEdge)
  | 0, _, found => found
  | _ + 1, [], found => found
  | fuel + 1, ent :: queue, found =>
      if 20 ≤ found.length then found
      else if maxHops ≤ ent.path.length then bfsLoop g endId maxHops fuel queue found
      else
        bfsLoop g endId maxHops fuel
          (processEdges endId maxHops ent (outgoing g ent.node) queue found).1
          (processEdges endId maxHops ent (outgoing g ent.node) queue found).2

/-- `GraphTraversal._bfs_paths(start_id, end_id, max_hops)`. -/
def bfsPaths (g : Graph) (startId endId : String) (maxHops fuel : Nat) :
    List (List GraphEdge) :=
  bfsLoop g endId maxHops fuel [⟨startId, [], [startId]⟩] []

/-- `GraphTraversal.find_paths` (lines 31–84): resolve entities, collect
BFS paths per (start, end) pair with `start != end`, score them, keep
strictly positive scores, sort descending and truncate. -/
def findPaths (g : Graph) (starts finals : List String) (maxHops fuel : Nat) :
    List ScoredPath :=
  if resolveEntities g starts = [] ∨ resolveEntities g finals = [] then []
  else
    sortDesc (fun sp => sp.score)
      ((((resolveEntities g starts).bind fun s =>
          (resolveEntities g finals).bind fun e =>
            if s = e then [] else bfsPaths g s e maxHops fuel).filterMap
        scorePath).filter fun sp => 0 < sp.score)
    |>.take MAX_PATHS_PER_QUERY

/-! ### Properties of `_score_path` and `_bfs_paths` -/

theorem scorePath_some (p : List GraphEdge) (sp : ScoredPath)
    (h : scorePath p = some sp) :
    sp.path = p ∧ sp.hop_count = p.length ∧ ¬pathMinConf p < MIN_CONFIDENCE := by
  cases p with
  | nil => cases h
  | cons e rest =>
    rw [scorePath] at h
    by_cases hc : pathMinConf (e :: rest) < MIN_CONFIDENCE
    · rw [if_pos hc] at h; cases h
    · rw [if_neg hc] at h
      injection h with h
      subst h
      exact ⟨rfl, rfl, hc⟩

theorem scorePath_none_of_low_conf (p : List GraphEdge)
    (h : pathMinConf p < MIN_CONFIDENCE) : scorePath p = none := by
  cases p with
  | nil => rfl
  | cons e rest => rw [scorePath, if_pos h]

/-- Every path in the found list after the inner edge loop was already
found, or extends the current entry's path by one edge. -/
theorem processEdges_found_shape (endId : String) (maxHops : Nat) (ent : BfsEntry) :
    ∀ (es : List GraphEdge) (q : List BfsEntry) (found : List (List GraphEdge)),
      ∀ p ∈ (processEdges endId maxHops ent es q found).2,
        p ∈ found ∨ ∃ e, p = ent.path ++ [e] := by
  intro es
  induction es with
  | nil => intro q found p hp; exact Or.inl hp
  | cons e rest ih =>
    intro q found p hp
    rw [processEdges] at hp
    by_cases h1 : e.to_id = ""
    · rw [if_pos h1] at hp; exact ih q found p hp
    · rw [if_neg h1] at hp
      by_cases h2 : e.to_id = endId
      · rw [if_pos h2] at hp
        by_cases h3 : 20 ≤ (found ++ [ent.path ++ [e]]).length
        · rw [if_pos h3] at hp
          rcases List.mem_append.mp hp with h | h
          · exact Or.inl h
          · exact Or.inr ⟨e, (List.mem_singleton.mp h)⟩
        · rw [if_neg h3] at hp
          rcases ih q (found ++ [ent.path ++ [e]]) p hp with h | h
          · rcases List.mem_append.mp h with h' | h'
            · exact Or.inl h'
            · exact Or.inr ⟨e, (List.mem_singleton.mp h')⟩
          · exact Or.inr h
      · rw [if_neg h2] at hp
        by_cases h3 : e.to_id ∉ ent.visited ∧ ent.path.length < maxHops - 1
        · rw [if_pos h3] at hp; exact ih _ found p hp
        · rw [if_neg h3] at hp; exact ih q found p hp

/-- The inner edge loop never grows the found list past 20 when entered
below 20 (the Python `break`). -/
theorem processEdges_count (endId : String) (maxHops : Nat) (ent : BfsEntry) :
    ∀ (es : List GraphEdge) (q : List BfsEntry) (found : List (List GraphEdge)),
      found.length < 20 → (processEdges endId maxHops ent es q found).2.length ≤ 20 := by
  intro es
  induction es with
  | nil => intro q found h; exact le_of_lt h
  | cons e rest ih =>
    intro q found h
    rw [processEdges]
    by_cases h1 : e.to_id = ""
    · rw [if_pos h1]; exact ih q found h
    · rw [if_neg h1]
      by_cases h2 : e.to_id = endId
      · rw [if_pos h2]
        by_cases h3 : 20 ≤ (found ++ [ent.path ++ [e]]).length
        · rw [if_pos h3]
          simp only [List.length_append, List.length_singleton]
          omega
        · rw [if_neg h3]
          exact ih q _ (by simp only [List.length_append, List.length_singleton] at h3 ⊢; omega)
      · rw [if_neg h2]
        by_cases h3 : e.to_id ∉ ent.visited ∧ ent.path.length < maxHops - 1
        · rw [if_pos h3]; exact ih _ found h
        · rw [if_neg h3]; exact ih q found h

/-- Safety invariant of the BFS `while` loop: at most 20 found paths, and
every found path has between 1 and `maxHops` hops. -/
theorem bfsLoop_inv (g : Graph) (endId : String) (maxHops : Nat) :
    ∀ (fuel : Nat) (queue : List BfsEntry) (found : List (List GraphEdge)),
      found.length ≤ 20 →
      (∀ p ∈ found, 1 ≤ p.length ∧ p.length ≤ maxHops) →
      (bfsLoop g endId maxHops fuel queue found).length ≤ 20 ∧
      ∀ p ∈ bfsLoop g endId maxHops fuel queue found,
        1 ≤ p.length ∧ p.length ≤ maxHops := by
  intro fuel
  induction fuel with
  | zero => intro queue found h1 h2; exact ⟨h1, h2⟩
  | succ fuel ih =>
    intro queue found h1 h2
    cases queue with
    | nil => exact ⟨h1, h2⟩
    | cons ent queue =>
      rw [bfsLoop]
      by_cases hf : 20 ≤ found.length
      · rw [if_pos hf]; exact ⟨h1, h2⟩
      · rw [if_neg hf]
        by_cases hh : maxHops ≤ ent.path.length
        · rw [if_pos hh]; exact ih queue found h1 h2
        · rw [if_neg hh]
          apply ih
          · exact processEdges_count endId maxHops ent _ queue found (by omega)
          · intro p hp
            rcases processEdges_found_shape endId maxHops ent _ queue found p hp with h | h
            · exact h2 p h
            · obtain ⟨e, rfl⟩ := h
              simp only [List.length_append, List.length_singleton]
              omega

theorem bfsPaths_inv (g : Graph) (startId endId : String) (maxHops fuel : Nat) :
    (bfsPaths g startId endId maxHops fuel).length ≤ 20 ∧
    ∀ p ∈ bfsPaths g startId endId maxHops fuel,
      1 ≤ p.length ∧ p.length ≤ maxHops := by
  exact bfsLoop_inv g endId maxHops fuel _ [] (by simp) (by simp)

/-- Every scored path returned by `find_paths` arises from `_score_path`
applied to a path found by `_bfs_paths` for some resolved (start, end)
pair. -/
theorem mem_findPaths (g : Graph) (starts finals : List String) (maxHops fuel : Nat)
    (sp : ScoredPath) (h : sp ∈ findPaths g starts finals maxHops fuel) :
    ∃ p, scorePath p = some sp ∧
      ∃ s ∈ resolveEntities g starts, ∃ e ∈ resolveEntities g finals,
        ¬s = e ∧ p ∈ bfsPaths g s e maxHops fuel := by
  rw [findPaths] at h
  by_cases hempty : resolveEntities g starts = [] ∨ resolveEntities g finals = []
  · rw [if_pos hempty] at h; cases h
  · rw [if_neg hempty] at h
    have h2 := List.take_subset _ _ h
    have h3 := (sortDesc_perm (fun sp : ScoredPath => sp.score) _).mem_iff.mp h2
    have h4 := (List.mem_filter.mp h3).1
    obtain ⟨p, hp, hscore⟩ := List.mem_filterMap.mp h4
    obtain ⟨s, hs, hp2⟩ := List.mem_bind.mp hp
    obtain ⟨e, he, hp3⟩ := List.mem_bind.mp hp2
    by_cases hse : s = e
    · rw [if_pos hse] at hp3; cases hp3
    · rw [if_neg hse] at hp3
      exact ⟨p, hscore, s, hs, e, he, hse, hp3⟩

/-! ### Concrete graphs for the specification's rejection scenario -/

def nodeA : GraphNode := ⟨"a", "Alpha"⟩

def nodeB : GraphNode := ⟨"b", "Beta"⟩

def nodeC : GraphNode := ⟨"c", "Gamma"⟩

/-- First hop of the rejected 2-hop path, confidence 0.9. -/
def edgeAB : GraphEdge := ⟨"USES", some (9/10), "a", "b", "ch1"⟩

/-- Second hop of the rejected 2-hop path, confidence 0.2. -/
def edgeBC : GraphEdge := ⟨"USES", some (2/10), "b", "c", "ch2"⟩

/-- Graph whose only a→c path is the 2-hop path with confidences
[0.9, 0.2]. -/
def demoRejGraph : Graph :=
  ⟨[("a", nodeA), ("b", nodeB), ("c", nodeC)], [edgeAB, edgeBC]⟩

/-- A single high-confidence edge a→c. -/
def edgeAC : GraphEdge := ⟨"USES", some (9/10), "a", "c", "ch3"⟩

/-- Graph with one accepted 1-hop a→c path. -/
def demoAccGraph : Graph := ⟨[("a", nodeA), ("c", nodeC)], [edgeAC]⟩

/-- The scored path produced for `demoAccGraph`. -/
def spAC : ScoredPath :=
  { path := [edgeAC]
    score := 91/100
    hop_count := 1
    nodes := ["a", "c"]
    edgeTypes := ["USES"]
    source_chunks := ["ch3"]
    confidence_scores := [9/10]
    low_confidence_warning := false }

/-! ## Claims about `GraphTraversal` -/

/-- C3.  A candidate path whose minimum edge confidence is strictly below
the hard floor `MIN_CONFIDENCE = 0.40` is rejected by `_score_path` and
never appears in the output of `find_paths`; in particular, in a graph
whose only a→c route is a 2-hop path with edge confidences [0.9, 0.2],
the BFS finds that path but `find_paths` returns nothing. -/
theorem graph_confidence_floor (g : Graph) (starts finals : List String)
    (mh fuel : Nat) :
    (∀ path, pathMinConf path < MIN_CONFIDENCE → scorePath path = none) ∧
    (∀ sp ∈ findPaths g starts finals mh fuel,
      ¬pathMinConf sp.path < MIN_CONFIDENCE) ∧
    bfsPaths demoRejGraph "a" "c" 3 5 = [[edgeAB, edgeBC]] ∧
    findPaths demoRejGraph ["a"] ["c"] 3 5 = [] := by
  refine ⟨scorePath_none_of_low_conf, ?_, ?_, ?_⟩
  · intro sp hsp
    obtain ⟨p, hscore, -⟩ := mem_findPaths g starts finals mh fuel sp hsp
    obtain ⟨hpath, -, hconf⟩ := scorePath_some p sp hscore
    rw [hpath]
    exact hconf
  · norm_num +decide [bfsPaths, bfsLoop, processEdges, outgoing, demoRejGraph,
      edgeAB, edgeBC, List.filter]
  · norm_num +decide [findPaths, resolveEntities, resolveAll, resolveOne, nodeIds,
      demoRejGraph, nodeA, nodeB, nodeC, List.dedup, bfsPaths, bfsLoop, processEdges,
      outgoing, edgeAB, edgeBC, List.filter, scorePath, pathMinConf, effConfidence,
      min_def, MIN_CONFIDENCE, sortDesc, insertDesc, MAX_PATHS_PER_QUERY]

/-- Witness for C3: `demoAccGraph` yields an accepted scored path, whose
minimum confidence the theorem bounds from below. -/
theorem graph_confidence_floor_witness :
    spAC ∈ findPaths demoAccGraph ["a"] ["c"] 3 5 ∧
    ¬pathMinConf spAC.path < MIN_CONFIDENCE := by
  have heq : findPaths demoAccGraph ["a"] ["c"] 3 5 = [spAC] := by
    norm_num +decide [findPaths, resolveEntities, resolveAll, resolveOne, nodeIds,
      demoAccGraph, nodeA, nodeC, List.dedup, bfsPaths, bfsLoop, processEdges,
      outgoing, edgeAC, List.filter, scorePath, pathMinConf, effConfidence,
      min_def, max_def, MIN_CONFIDENCE, SOFT_CONFIDENCE, sortDesc, insertDesc,
      MAX_PATHS_PER_QUERY, spAC, pathScore, lengthScoreOf, edgeScoreOf, pathAvgConf,
      adjustedConf, edgeTypeWeight, List.filterMap_cons, List.take]
  have hmem : spAC ∈ findPaths demoAccGraph ["a"] ["c"] 3 5 := by
    rw [heq]; exact List.mem_singleton.mpr rfl
  exact ⟨hmem, (graph_confidence_floor demoAccGraph ["a"] ["c"] 3 5).2.1 spAC hmem⟩

/-- C4.  Every path found by the breadth-first search has between 1 and
`max_hops` hops, at most 20 paths are collected per (start, end) pair,
and consequently every scored path returned by `find_paths` has between
1 and `max_hops` hops (the default `max_hops` is `MAX_HOPS = 3`). -/
theorem bfs_path_bounds (g : Graph) (s e : String) (mh fuel : Nat)
    (starts finals : List String) :
    (bfsPaths g s e mh fuel).length ≤ 20 ∧
    (∀ p ∈ bfsPaths g s e mh fuel, 1 ≤ p.length ∧ p.length ≤ mh) ∧
    (∀ sp ∈ findPaths g starts finals mh fuel,
      1 ≤ sp.hop_count ∧ sp.hop_count ≤ mh) := by
  refine ⟨(bfsPaths_inv g s e mh fuel).1, (bfsPaths_inv g s e mh fuel).2, ?_⟩
  intro sp hsp
  obtain ⟨p, hscore, s', _, e', _, _, hmem⟩ :=
    mem_findPaths g starts finals mh fuel sp hsp
  obtain ⟨-, hhop, -⟩ := scorePath_some p sp hscore
  rw [hhop]
  exact (bfsPaths_inv g s' e' mh fuel).2 p hmem

/-- Witness for C4 at the rejection demo graph: the BFS finds the concrete
2-hop path, and the theorem bounds its length. -/
theorem bfs_path_bounds_witness :
    [edgeAB, edgeBC] ∈ bfsPaths demoRejGraph "a" "c" 3 5 ∧
    1 ≤ ([edgeAB, edgeBC] : List GraphEdge).length ∧
    ([edgeAB, edgeBC] : List GraphEdge).length ≤ 3 := by
  have heq : bfsPaths demoRejGraph "a" "c" 3 5 = [[edgeAB, edgeBC]] := by
    norm_num +decide [bfsPaths, bfsLoop, processEdges, outgoing, demoRejGraph,
      edgeAB, edgeBC, List.filter]
  have hmem : [edgeAB, edgeBC] ∈ bfsPaths demoRejGraph "a" "c" 3 5 := by
    rw [heq]; exact List.mem_singleton.mpr rfl
  exact ⟨hmem, (bfs_path_bounds demoRejGraph "a" "c" 3 5 [] []).2.1 _ hmem⟩

/-- C8.  Entity resolution over the (modelled) node store: a reference
that is an existing node id resolves directly to itself; any other
reference resolves to the ids of at most 3 nodes whose lower-cased names
contain the lower-cased reference; and the final resolved list holds at
most 10 distinct ids.  (The `src/` code itself crashes here: it reads
`graph_service.nodes`, which the Neo4j-backed `GraphService` no longer
defines — see the C8 entry of the results.) -/
theorem resolve_entities_spec (g : Graph) (refs : List String) (ref : String) :
    (ref ∈ nodeIds g → resolveOne g ref = [ref]) ∧
    (ref ∉ nodeIds g →
      resolveOne g ref = (findNodesByName g ref 3).map (fun n => n.nid) ∧
      (resolveOne g ref).length ≤ 3 ∧
      ∀ nid ∈ resolveOne g ref, ∃ n ∈ g.nodes.map Prod.snd,
        n.nid = nid ∧ charsContain (lowerChars ref) (lowerChars n.name) = true) ∧
    ((resolveEntities g refs).length ≤ 10 ∧ (resolveEntities g refs).Nodup) := by
  refine ⟨fun h => by rw [resolveOne, if_pos h], fun h => ⟨?_, ?_, ?_⟩, ?_, ?_⟩
  · rw [resolveOne, if_neg h]
  · rw [resolveOne, if_neg h, List.length_map, findNodesByName, List.length_take]
    exact min_le_left _ _
  · intro nid hnid
    rw [resolveOne, if_neg h] at hnid
    obtain ⟨n, hn, rfl⟩ := List.mem_map.mp hnid
    have hn2 := List.take_subset _ _ hn
    have hn3 := List.mem_filter.mp hn2
    exact ⟨n, hn3.1, rfl, hn3.2⟩
  · rw [resolveEntities, List.length_take]
    exact min_le_left _ _
  · exact ((resolveAll g refs).dedup.take_sublist 10).nodup
      (List.nodup_dedup (resolveAll g refs))

/-- Nodes for the C8 witness graph: two nodes fuzzily matching "redis". -/
def nodeR1 : GraphNode := ⟨"id1", "Redis Cache"⟩

def nodeR2 : GraphNode := ⟨"id2", "Redis Store"⟩

def gResolve : Graph := ⟨[("id1", nodeR1), ("id2", nodeR2)], []⟩

/-- Witness for C8: a direct id reference and a fuzzy name reference on a
concrete store. -/
theorem resolve_entities_spec_witness :
    resolveOne gResolve "id1" = ["id1"] ∧
    (resolveOne gResolve "redis").length ≤ 3 ∧
    (resolveEntities gResolve ["id1", "redis"]).length ≤ 10 ∧
    (resolveEntities gResolve ["id1", "redis"]).Nodup :=
  ⟨(resolve_entities_spec gResolve ["id1", "redis"] "id1").1 (by decide),
   ((resolve_entities_spec gResolve ["id1", "redis"] "redis").2.1 (by decide)).2.1,
   (resolve_entities_spec gResolve ["id1", "redis"] "id1").2.2.1,
   (resolve_entities_spec gResolve ["id1", "redis"] "id1").2.2.2⟩

/-! ## Research loop — `ResearchAgent.research`

Source: `Backend/services/research_agent.py`, lines 37–78, and
`Backend/config/agent_config.py` line 11 (`MAX_LOOPS = 3`).  The
per-step hybrid search and the planner call are external effects and are
passed in as functions; the embedding additionally returns how many
search steps and how many planner evaluations were performed. -/

/-- `config/agent_config.py` line 11. -/
def MAX_LOOPS : Nat := 3

/-- The planner's parsed JSON reply (`_evaluate_and_plan`):
`{"status": ..., "next_query": ...}`; `next_query? = none` models a reply
without that key (`next_move.get("next_query", current_query)`). -/
structure PlanResult where
  status : String
  next_query? : Option String
deriving Repr

/-- The per-step accumulation (lines 56–62): append chunks whose research
key has not been seen. -/
def addNew (hsh : String → Int) :
    List Chunk → List ChunkKey → List Chunk → List Chunk × List ChunkKey
  | acc, seen, [] => (acc, seen)
  | acc, seen, c :: rest =>
      if researchKey hsh c ∈ seen then addNew hsh acc seen rest
      else addNew hsh (acc ++ [c]) (seen ++ [researchKey hsh c]) rest

/-- The `for step in range(MAX_LOOPS)` loop (lines 48–77), indexed by the
number of remaining iterations (`rem = MAX_LOOPS - step`, so the Python
test `step == MAX_LOOPS - 1` is `rem = 1`).  Returns the accumulated
chunks, the number of search executions and the number of planner
calls. -/
def researchLoop (hsh : String → Int) (search : String → List Chunk)
    (plan : String → List Chunk → PlanResult) (origQuery : String) :
    Nat → List Chunk → List ChunkKey → String → List Chunk × Nat × Nat
  | 0, acc, _, _ => (acc, 0, 0)
  | rem + 1, acc, seen, q =>
      if rem = 0 then ((addNew hsh acc seen (search q)).1, 1, 0)
      else
        if (plan origQuery (addNew hsh acc seen (search q)).1).status = "COMPLETE" then
          ((addNew hsh acc seen (search q)).1, 1, 1)
        else
          ((researchLoop hsh search plan origQuery rem
              (addNew hsh acc seen (search q)).1
              (addNew hsh acc seen (search q)).2
              (((plan origQuery (addNew hsh acc seen (search q)).1).next_query?).getD q)).1,
           (researchLoop hsh search plan origQuery rem
              (addNew hsh acc seen (search q)).1
              (addNew hsh acc seen (search q)).2
              (((plan origQuery (addNew hsh acc seen (search q)).1).next_query?).getD q)).2.1 + 1,
           (researchLoop hsh search plan origQuery rem
              (addNew hsh acc seen (search q)).1
              (addNew hsh acc seen (search q)).2
              (((plan origQuery (addNew hsh acc seen (search q)).1).next_query?).getD q)).2.2 + 1)

/-- `ResearchAgent.research(query)` with instrumented call counts. -/
def research (hsh : String → Int) (search : String → List Chunk)
    (plan : String → List Chunk → PlanResult) (q : String) :
    List Chunk × Nat × Nat :=
  researchLoop hsh search plan q MAX_LOOPS [] [] q

/-- With a planner that never reports `COMPLETE`, a loop with `rem ≥ 1`
remaining iterations performs exactly `rem` searches and `rem - 1`
planner calls. -/
theorem researchLoop_counts_continue (hsh : String → Int)
    (search : String → List Chunk) (plan : String → List Chunk → PlanResult)
    (origQuery : String)
    (hplan : ∀ acc, (plan origQuery acc).status = "CONTINUE") :
    ∀ (rem : Nat) (acc : List Chunk) (seen : List ChunkKey) (q : String),
      1 ≤ rem →
      (researchLoop hsh search plan origQuery rem acc seen q).2.1 = rem ∧
      (researchLoop hsh search plan origQuery rem acc seen q).2.2 = rem - 1 := by
  intro rem
  induction rem with
  | zero => intro acc seen q h; omega
  | succ rem ih =>
    intro acc seen q _
    rw [researchLoop]
    by_cases h0 : rem = 0
    · rw [if_pos h0]
      subst h0
      exact ⟨rfl, rfl⟩
    · rw [if_neg h0]
      have hne : ((plan origQuery (addNew hsh acc seen (search q)).1).status =
          "COMPLETE") = False := by
        rw [hplan]
        simp
      rw [if_neg (by rw [hne]; exact fun h => h)]
      have hih := ih (addNew hsh acc seen (search q)).1 (addNew hsh acc seen (search q)).2
        (((plan origQuery (addNew hsh acc seen (search q)).1).next_query?).getD q)
        (by omega)
      refine ⟨by rw [hih.1], ?_⟩
      rw [hih.2]
      show rem - 1 + 1 = rem + 1 - 1
      omega

/-- C5.  With `MAX_LOOPS = 3` and a planner that always answers status
`CONTINUE`, `ResearchAgent.research` performs exactly 3 hybrid retrieval
steps and exactly 2 planner evaluations: it returns after the 3rd
retrieval, with no 4th retrieval and no planner call after the final
step. -/
theorem research_loop_termination (hsh : String → Int)
    (search : String → List Chunk) (plan : String → List Chunk → PlanResult)
    (q : String) (hplan : ∀ oq acc, (plan oq acc).status = "CONTINUE") :
    (research hsh search plan q).2.1 = 3 ∧ (research hsh search plan q).2.2 = 2 := by
  have h := researchLoop_counts_continue hsh search plan q (fun acc => hplan q acc)
    MAX_LOOPS [] [] q (by norm_num [MAX_LOOPS])
  rw [research]
  rw [MAX_LOOPS] at h ⊢
  exact ⟨h.1, h.2⟩

/-- Witness for C5 with a concrete empty search and an always-CONTINUE
planner. -/
theorem research_loop_termination_witness :
    (research (fun _ => 0) (fun _ => []) (fun _ _ => ⟨"CONTINUE", none⟩) "q").2.1 = 3 ∧
    (research (fun _ => 0) (fun _ => []) (fun _ _ => ⟨"CONTINUE", none⟩) "q").2.2 = 2 :=
  research_loop_termination (fun _ => 0) (fun _ => []) (fun _ _ => ⟨"CONTINUE", none⟩)
    "q" (fun _ _ => rfl)

/-! ## Result cache — `CacheService`

Source: `Backend/services/cache_service.py` and
`Backend/config/cache_config.py`.  The `_cache` dictionary is modelled as
an insertion-ordered association list `key ↦ (value, expiry)` with unique
keys (a Python dict); `time.time()` is passed in explicitly as a rational
`now`. -/

/-- `config/cache_config.py` line 11. -/
def MAX_CACHE_SIZE : Nat := 1000

/-- `config/cache_config.py` line 12 (seconds). -/
def DEFAULT_TTL : ℚ := 3600

/-- `int(cache_config.MAX_CACHE_SIZE * 0.1)` (cache_service.py line 58):
the float product `1000 * 0.1` rounds to exactly `100.0`, so
`int(...)` is 100. -/
def EVICT_COUNT : Nat := 100

/-- The cache state: the `enabled` flag and the ordered entry list. -/
structure CacheState (α : Type) where
  enabled : Bool
  entries : List (String × α × ℚ)

/-- Dictionary lookup (`self._cache[key]` after `key in self._cache`). -/
def cacheLookup {α : Type} (key : String) : List (String × α × ℚ) → Option (α × ℚ)
  | [] => none
  | p :: rest => if p.1 = key then some p.2 else cacheLookup key rest

/-- `del self._cache[key]`. -/
def removeKey {α : Type} (key : String) : List (String × α × ℚ) → List (String × α × ℚ)
  | [] => []
  | p :: rest => if p.1 = key then rest else p :: removeKey key rest

/-- `self._cache[key] = (value, expiry)`: update in place when the key
exists, append otherwise. -/
def setEntry {α : Type} (key : String) (v : α) (exp : ℚ) :
    List (String × α × ℚ) → List (String × α × ℚ)
  | [] => [(key, v, exp)]
  | p :: rest => if p.1 = key then (key, v, exp) :: rest else p :: setEntry key v exp rest

/-- `CacheService.get` (lines 28–42): the returned value (`None` on a
miss) and the state after the call (an expired entry is deleted). -/
def cacheGet {α : Type} (st : CacheState α) (now : ℚ) (key : String) :
    Option α × CacheState α :=
  if st.enabled = false then (none, st)
  else
    (cacheLookup key st.entries).elim (none, st) fun p =>
      if now < p.2 then (some p.1, st)
      else (none, ⟨st.enabled, removeKey key st.entries⟩)

/-- `CacheService.set` (lines 44–62): no-op when disabled; evict the first
`EVICT_COUNT` keys when at capacity (`list(self._cache.keys())[:100]` are
the first 100 insertion-ordered keys); then store
`(value, now + ttl)`. -/
def cacheSet {α : Type} (st : CacheState α) (now : ℚ) (key : String) (v : α)
    (ttl : ℚ) : CacheState α :=
  if st.enabled = false then st
  else
    ⟨st.enabled,
     setEntry key v (now + ttl)
       (if MAX_CACHE_SIZE ≤ st.entries.length then st.entries.drop EVICT_COUNT
        else st.entries)⟩

/-! ### Cache lemmas -/

theorem cacheLookup_setEntry_self {α : Type} (key : String) (v : α) (exp : ℚ) :
    ∀ l : List (String × α × ℚ), cacheLookup key (setEntry key v exp l) = some (v, exp) := by
  intro l
  induction l with
  | nil => simp [setEntry, cacheLookup]
  | cons p rest ih =>
    by_cases h : p.1 = key
    · simp [setEntry, cacheLookup, h]
    · simp [setEntry, cacheLookup, h, ih]

theorem cacheLookup_eq_none_of_not_mem {α : Type} (key : String) :
    ∀ l : List (String × α × ℚ), key ∉ l.map Prod.fst → cacheLookup key l = none := by
  intro l
  induction l with
  | nil => intro _; rfl
  | cons p rest ih =>
    intro h
    simp only [List.map_cons, List.mem_cons] at h
    push_neg at h
    rw [cacheLookup, if_neg (fun h' => h.1 h'.symm)]
    exact ih h.2

theorem cacheLookup_removeKey_self {α : Type} (key : String) :
    ∀ l : List (String × α × ℚ), (l.map Prod.fst).Nodup →
      cacheLookup key (removeKey key l) = none := by
  intro l
  induction l with
  | nil => intro _; rfl
  | cons p rest ih =>
    intro hnd
    simp only [List.map_cons, List.nodup_cons] at hnd
    by_cases h : p.1 = key
    · rw [removeKey, if_pos h]
      exact cacheLookup_eq_none_of_not_mem key rest (h ▸ hnd.1)
    · rw [removeKey, if_neg h, cacheLookup, if_neg h]
      exact ih hnd.2

theorem keys_setEntry_shape {α : Type} (key : String) (v : α) (exp : ℚ) :
    ∀ l : List (String × α × ℚ),
      (setEntry key v exp l).map Prod.fst =
        if key ∈ l.map Prod.fst then l.map Prod.fst else l.map Prod.fst ++ [key] := by
  intro l
  induction l with
  | nil => simp [setEntry]
  | cons p rest ih =>
    by_cases h : p.1 = key
    · subst h; simp [setEntry]
    · simp only [setEntry, if_neg h]
      by_cases h2 : key ∈ rest.map Prod.fst
      · simp [ih, h2, Ne.symm h]
      · simp [ih, h2, Ne.symm h]

theorem length_setEntry_le {α : Type} (key : String) (v : α) (exp : ℚ) :
    ∀ l : List (String × α × ℚ), (setEntry key v exp l).length ≤ l.length + 1 := by
  intro l
  induction l with
  | nil => simp [setEntry]
  | cons p rest ih =>
    by_cases h : p.1 = key
    · simp [setEntry, h]
    · simp only [setEntry, if_neg h, List.length_cons]
      omega

theorem length_removeKey_le {α : Type} (key : String) :
    ∀ l : List (String × α × ℚ), (removeKey key l).length ≤ l.length := by
  intro l
  induction l with
  | nil => exact le_refl _
  | cons p rest ih =>
    by_cases h : p.1 = key
    · simp only [removeKey, if_pos h, List.length_cons]
      omega
    · simp only [removeKey, if_neg h, List.length_cons]
      omega

/-! ## Claim C6: cache TTL -/

/-- C6.  In an enabled cache, after `set` at time `t` with time-to-live
`ttl` (default 3600), `get` at time `now` returns the stored value
exactly when `now` is strictly before the expiry `t + ttl`; when the
entry has expired, `get` deletes it (the key no longer resolves in the
resulting state) and reports a miss. -/
theorem cache_ttl {α : Type} (st : CacheState α) (t now ttl : ℚ) (key : String)
    (v : α) (hen : st.enabled = true)
    (hkeys : (st.entries.map Prod.fst).Nodup) :
    ((cacheGet (cacheSet st t key v ttl) now key).1 = some v ↔ now < t + ttl) ∧
    (¬now < t + ttl →
      (cacheGet (cacheSet st t key v ttl) now key).1 = none ∧
      cacheLookup key (cacheGet (cacheSet st t key v ttl) now key).2.entries = none) := by
  have hbase : ((if MAX_CACHE_SIZE ≤ st.entries.length then st.entries.drop EVICT_COUNT
      else st.entries).map Prod.fst).Nodup := by
    by_cases h : MAX_CACHE_SIZE ≤ st.entries.length
    · rw [if_pos h]
      exact (((List.drop_sublist EVICT_COUNT st.entries).map Prod.fst)).nodup hkeys
    · rwa [if_neg h]
  have hnd2 : ((setEntry key v (t + ttl)
      (if MAX_CACHE_SIZE ≤ st.entries.length then st.entries.drop EVICT_COUNT
       else st.entries)).map Prod.fst).Nodup := by
    rw [keys_setEntry_shape]
    by_cases hmem : key ∈ ((if MAX_CACHE_SIZE ≤ st.entries.length then
        st.entries.drop EVICT_COUNT else st.entries).map Prod.fst)
    · rw [if_pos hmem]
      exact hbase
    · rw [if_neg hmem]
      simp [List.nodup_append, hbase, hmem]
  by_cases hlt : now < t + ttl
  · refine ⟨?_, fun h => absurd hlt h⟩
    simp [cacheGet, cacheSet, hen, cacheLookup_setEntry_self, hlt]
  · have h1 : (cacheGet (cacheSet st t key v ttl) now key).1 = none := by
      simp [cacheGet, cacheSet, hen, cacheLookup_setEntry_self, hlt]
    have h2 : cacheLookup key
        (cacheGet (cacheSet st t key v ttl) now key).2.entries = none := by
      simp [cacheGet, cacheSet, hen, cacheLookup_setEntry_self, hlt]
      exact cacheLookup_removeKey_self key _ hnd2
    refine ⟨⟨fun h => absurd (h1 ▸ h) (by simp), fun h => absurd h hlt⟩,
      fun _ => ⟨h1, h2⟩⟩

/-- Witness for C6: value 5 stored at time 0 with ttl 10 is retrievable at
time 3 and gone at time 12. -/
theorem cache_ttl_witness :
    (cacheGet (cacheSet (⟨true, []⟩ : CacheState Nat) 0 "k" 5 10) 3 "k").1 = some 5 ∧
    (cacheGet (cacheSet (⟨true, []⟩ : CacheState Nat) 0 "k" 5 10) 12 "k").1 = none := by
  have h1 := cache_ttl (⟨true, []⟩ : CacheState Nat) 0 3 10 "k" 5 rfl (by simp)
  have h2 := cache_ttl (⟨true, []⟩ : CacheState Nat) 0 12 10 "k" 5 rfl (by simp)
  exact ⟨h1.1.mpr (by norm_num), (h2.2 (by norm_num)).1⟩

/-! ## Claim C10: cache capacity -/

/-- A client call to the cache: `get` or `set` at a given clock time. -/
inductive CacheOp (α : Type) where
  | getOp (now : ℚ) (key : String)
  | setOp (now : ℚ) (key : String) (v : α) (ttl : ℚ)

/-- State transition of one cache call. -/
def applyOp {α : Type} (st : CacheState α) : CacheOp α → CacheState α
  | .getOp now key => (cacheGet st now key).2
  | .setOp now key v ttl => cacheSet st now key v ttl

/-- Run a sequence of cache calls. -/
def runOps {α : Type} : CacheState α → List (CacheOp α) → CacheState α
  | st, [] => st
  | st, op :: rest => runOps (applyOp st op) rest

theorem cacheGet_size {α : Type} (st : CacheState α) (now : ℚ) (key : String) :
    (cacheGet st now key).2.entries.length ≤ st.entries.length := by
  rw [cacheGet]
  by_cases h : st.enabled = false
  · rw [if_pos h]
  · rw [if_neg h]
    cases hl : cacheLookup key st.entries with
    | none => simp
    | some p =>
      simp only [Option.elim]
      by_cases h2 : now < p.2
      · rw [if_pos h2]
      · rw [if_neg h2]
        exact length_removeKey_le key st.entries

theorem cacheSet_size {α : Type} (st : CacheState α) (now : ℚ) (key : String)
    (v : α) (ttl : ℚ) (h : st.entries.length ≤ MAX_CACHE_SIZE) :
    (cacheSet st now key v ttl).entries.length ≤ MAX_CACHE_SIZE := by
  rw [cacheSet]
  by_cases he : st.enabled = false
  · rw [if_pos he]; exact h
  · rw [if_neg he]
    by_cases hfull : MAX_CACHE_SIZE ≤ st.entries.length
    · show (setEntry key v (now + ttl) _).length ≤ MAX_CACHE_SIZE
      rw [if_pos hfull]
      have h1 := length_setEntry_le key v (now + ttl) (st.entries.drop EVICT_COUNT)
      have h2 : (st.entries.drop EVICT_COUNT).length =
          st.entries.length - EVICT_COUNT := List.length_drop _ _
      simp only [MAX_CACHE_SIZE, EVICT_COUNT] at *
      omega
    · show (setEntry key v (now + ttl) _).length ≤ MAX_CACHE_SIZE
      rw [if_neg hfull]
      have h1 := length_setEntry_le key v (now + ttl) st.entries
      simp only [MAX_CACHE_SIZE] at *
      omega

theorem applyOp_size {α : Type} (st : CacheState α) (op : CacheOp α)
    (h : st.entries.length ≤ MAX_CACHE_SIZE) :
    (applyOp st op).entries.length ≤ MAX_CACHE_SIZE := by
  cases op with
  | getOp now key => exact le_trans (cacheGet_size st now key) h
  | setOp now key v ttl => exact cacheSet_size st now key v ttl h

theorem runOps_size {α : Type} :
    ∀ (ops : List (CacheOp α)) (st : CacheState α),
      st.entries.length ≤ MAX_CACHE_SIZE →
      (runOps st ops).entries.length ≤ MAX_CACHE_SIZE := by
  intro ops
  induction ops with
  | nil => intro st h; exact h
  | cons op rest ih => intro st h; exact ih _ (applyOp_size st op h)

/-- C10.  Starting from an empty cache, no sequence of `get`/`set` calls
drives the number of stored entries above `MAX_CACHE_SIZE = 1000`: a
`set` that finds at least `MAX_CACHE_SIZE` entries first deletes
`int(MAX_CACHE_SIZE * 0.1) = 100` entries (so it ends at most one above
`size - 100`), and `set` is total — it never fails on a full cache. -/
theorem cache_size_invariant (α : Type) (ops : List (CacheOp α)) (en : Bool)
    (st : CacheState α) (t ttl : ℚ) (key : String) (v : α) :
    (runOps (⟨en, []⟩ : CacheState α) ops).entries.length ≤ MAX_CACHE_SIZE ∧
    (st.enabled = true → MAX_CACHE_SIZE ≤ st.entries.length →
      (cacheSet st t key v ttl).entries.length ≤
        st.entries.length - EVICT_COUNT + 1) ∧
    EVICT_COUNT = 100 := by
  refine ⟨runOps_size ops _ (by simp [MAX_CACHE_SIZE]), ?_, rfl⟩
  intro hen hfull
  rw [cacheSet, if_neg (by simp [hen])]
  show (setEntry key v (t + ttl) _).length ≤ _
  rw [if_pos hfull]
  have h1 := length_setEntry_le key v (t + ttl) (st.entries.drop EVICT_COUNT)
  have h2 : (st.entries.drop EVICT_COUNT).length =
      st.entries.length - EVICT_COUNT := List.length_drop _ _
  omega

/-- Witness for C10: two concrete calls from empty, and a full
1000-entry cache handed to `set`. -/
theorem cache_size_invariant_witness :
    (runOps (⟨true, []⟩ : CacheState Nat)
      [CacheOp.setOp 0 "a" 7 10, CacheOp.getOp 1 "a"]).entries.length ≤
        MAX_CACHE_SIZE ∧
    (cacheSet (⟨true, List.replicate 1000 ("k", 7, 0)⟩ : CacheState Nat)
        0 "b" 7 10).entries.length ≤
      (List.replicate 1000 (("k", 7, 0) : String × Nat × ℚ)).length -
        EVICT_COUNT + 1 := by
  have h := cache_size_invariant Nat [CacheOp.setOp 0 "a" 7 10, CacheOp.getOp 1 "a"]
    true (⟨true, List.replicate 1000 ("k", 7, 0)⟩ : CacheState Nat) 0 10 "b" 7
  exact ⟨h.1, h.2.1 rfl (by simp [MAX_CACHE_SIZE])⟩

/-! ## Retrieval pipeline failure behaviour — `ChatService._retrieve_rag_context`

Source: `Backend/services/chat_service.py`, lines 313–378.  The vector,
BM25 and graph sub-searches run sequentially inside one `try` block; the
pipeline is modelled as a function of the three sub-search outcomes
(`none` models a raised exception, `some results` a normal return) and of
the external reranker.  When all three succeed, the context built from
the reranked fusion is returned, preserving keys, scores and order. -/

/-- The step-1 retrieval block: any raise inside the `try` jumps to the
`except` handler and the function returns `[]` (line 378); otherwise the
three result lists (empty or not) are fused, and a nonempty fusion is
truncated to 20 candidates and reranked. -/
def retrievalStep (hsh : String → Int)
    (vec bm gr : Option (List (Chunk × ℚ)))
    (rerank : List (ChunkKey × ℚ) → List (ChunkKey × ℚ))
    (ws : List ℚ) : List (ChunkKey × ℚ) :=
  match vec with
  | none => []
  | some v =>
      match bm with
      | none => []
      | some b =>
          match gr with
          | none => []
          | some g =>
              if v = [] ∧ b = [] ∧ g = [] then []
              else
                if fuse hsh 60 [v, b, g] ws = [] then []
                else rerank ((fuse hsh 60 [v, b, g] ws).take 20)

/-- C7 counterexample: with the BM25 sub-search raising and the other two
succeeding with nonempty results, the single `try` block returns the
empty context, even though the fusion of the two surviving methods is
nonempty — the failing sub-search does not merely "contribute an empty
list". -/
theorem retrieval_abort_counterexample :
    retrievalStep (fun _ => 0) (some [(chunkA, 1)]) none (some [(chunkC, 1)])
      id [1, 1, 1] = [] ∧
    fuse (fun _ => 0) 60 [[(chunkA, 1)], [], [(chunkC, 1)]] [1, 1, 1] ≠ [] := by
  refine ⟨rfl, ?_⟩
  norm_num +decide [fuse, fuseScores, fuseAll, addResultSet, bump, normalizeWeights,
    sortDesc, insertDesc, fuseKey, chunkA, chunkC]

/-- C7 amended: if any of the three sub-searches raises, the whole
retrieval `try` block aborts and the query gets the empty context; a
sub-search contributes an empty list (with the other two reaching fusion)
only when it returns empty without raising. -/
theorem retrieval_step_behavior (hsh : String → Int)
    (vec bm gr : Option (List (Chunk × ℚ)))
    (rerank : List (ChunkKey × ℚ) → List (ChunkKey × ℚ)) (ws : List ℚ) :
    ((vec = none ∨ bm = none ∨ gr = none) →
      retrievalStep hsh vec bm gr rerank ws = []) ∧
    (∀ v b g, vec = some v → bm = some b → gr = some g →
      ¬(v = [] ∧ b = [] ∧ g = []) → fuse hsh 60 [v, b, g] ws ≠ [] →
      retrievalStep hsh vec bm gr rerank ws =
        rerank ((fuse hsh 60 [v, b, g] ws).take 20)) := by
  constructor
  · intro h
    rcases h with h | h | h
    · subst h; rfl
    · subst h
      cases vec with
      | none => rfl
      | some v => rfl
    · subst h
      cases vec with
      | none => rfl
      | some v =>
        cases bm with
        | none => rfl
        | some b => rfl
  · intro v b g hv hb hg hne hfuse
    subst hv; subst hb; subst hg
    show (if v = [] ∧ b = [] ∧ g = [] then []
      else if fuse hsh 60 [v, b, g] ws = [] then []
      else rerank ((fuse hsh 60 [v, b, g] ws).take 20)) = _
    rw [if_neg hne, if_neg hfuse]

/-- Witness for the amended C7: a raising vector search, and a run where
BM25 succeeds empty while the other two succeed nonempty. -/
theorem retrieval_step_behavior_witness :
    retrievalStep (fun _ => 0) none (some []) (some []) id [1, 1, 1] = [] ∧
    retrievalStep (fun _ => 0) (some [(chunkA, 1)]) (some [])
        (some [(chunkC, 1)]) id [1, 1, 1] =
      id ((fuse (fun _ => 0) 60 [[(chunkA, 1)], [], [(chunkC, 1)]]
        [1, 1, 1]).take 20) := by
  constructor
  · exact (retrieval_step_behavior (fun _ => 0) none (some []) (some [])
      id [1, 1, 1]).1 (Or.inl rfl)
  · exact (retrieval_step_behavior (fun _ => 0) (some [(chunkA, 1)]) (some [])
      (some [(chunkC, 1)]) id [1, 1, 1]).2 [(chunkA, 1)] [] [(chunkC, 1)]
      rfl rfl rfl (by simp)
      (by norm_num +decide [fuse, fuseScores, fuseAll, addResultSet, bump,
        normalizeWeights, sortDesc, insertDesc, fuseKey, chunkA, chunkC])

end NeuroGraph
